import Mathlib

/-!
Verification of the searust core (`src/model.rs`): the TF-IDF statistics
model, the in-memory index (`InMemoryModel`) and the sqlite-backed index
(`SqliteModel`).

Modelling conventions:
* Rust `f32` values are modelled by the type `F` below: the IEEE special
  values NaN and ±infinity are represented explicitly (they decide several
  claims: `compute_tf` divides by zero, and the sort comparator calls
  `partial_cmp(..).unwrap()`, which panics on NaN); arithmetic on finite
  values is idealised as exact real arithmetic (rounding is out of scope).
* `HashMap` is modelled as an association list; the unspecified iteration
  order of the Rust `HashMap` becomes the list order.
* `PathBuf` is modelled as `String`; the tokenizer (`Lexer`, an external
  collaborator per the spec) is abstracted away: operations take the token
  list it would produce.
* Rust `Result<T, ()>` is `Except Unit T`; a panic is modelled by an outer
  `Option` being `none`.
-/

/-- Model of a Rust `f32` value as it occurs in this program: NaN, the two
infinities, or a finite value idealised as a real number. -/
inductive F : Type where
  | nan : F
  | pinf : F
  | ninf : F
  | val : ℝ → F

/-- IEEE addition on `F` (finite arithmetic idealised as exact). -/
noncomputable def F.add : F → F → F
  | F.nan, _ => F.nan
  | _, F.nan => F.nan
  | F.pinf, F.ninf => F.nan
  | F.ninf, F.pinf => F.nan
  | F.pinf, _ => F.pinf
  | _, F.pinf => F.pinf
  | F.ninf, _ => F.ninf
  | _, F.ninf => F.ninf
  | F.val x, F.val y => F.val (x + y)

/-- IEEE multiplication on `F` (finite arithmetic idealised as exact). -/
noncomputable def F.mul : F → F → F
  | F.nan, _ => F.nan
  | _, F.nan => F.nan
  | F.pinf, F.pinf => F.pinf
  | F.pinf, F.ninf => F.ninf
  | F.ninf, F.pinf => F.ninf
  | F.ninf, F.ninf => F.pinf
  | F.pinf, F.val x => if x = 0 then F.nan else if 0 < x then F.pinf else F.ninf
  | F.val x, F.pinf => if x = 0 then F.nan else if 0 < x then F.pinf else F.ninf
  | F.ninf, F.val x => if x = 0 then F.nan else if 0 < x then F.ninf else F.pinf
  | F.val x, F.ninf => if x = 0 then F.nan else if 0 < x then F.ninf else F.pinf
  | F.val x, F.val y => F.val (x * y)

/-- The real number carried by a finite `F` value (junk 0 on NaN/∞). -/
noncomputable def F.toReal : F → ℝ
  | F.val x => x
  | _ => 0

/-- Model of `f32::partial_cmp`: `none` exactly when one operand is NaN
(the `unwrap` in `search_query` panics in that case). -/
noncomputable def fcmp : F → F → Option Ordering
  | F.nan, _ => none
  | _, F.nan => none
  | F.ninf, F.ninf => some Ordering.eq
  | F.ninf, _ => some Ordering.lt
  | _, F.ninf => some Ordering.gt
  | F.pinf, F.pinf => some Ordering.eq
  | F.pinf, _ => some Ordering.gt
  | _, F.pinf => some Ordering.lt
  | F.val x, F.val y =>
      if x < y then some Ordering.lt
      else if x = y then some Ordering.eq
      else some Ordering.gt

/-- `type DocFreq = HashMap<String, usize>` (model.rs line 14), as an
association list. -/
abbrev DocFreq : Type := List (String × Nat)

/-- `type TermFreq = HashMap<String, usize>` (model.rs line 15), as an
association list. -/
abbrev TermFreq : Type := List (String × Nat)

/-- `struct Doc { tf: TermFreq, count: usize }` (model.rs lines 17-21). -/
structure Doc : Type where
  tf : TermFreq
  count : Nat
deriving DecidableEq

/-- `HashMap::get` on the association-list model: first binding wins. -/
def lookupA {α : Type} : List (String × α) → String → Option α
  | [], _ => none
  | (k, v) :: rest, t => if k = t then some v else lookupA rest t

/-- `HashMap::insert` on the association-list model: replace the binding if
the key is present, otherwise append it. -/
def insertA {α : Type} : List (String × α) → String → α → List (String × α)
  | [], k, v => [(k, v)]
  | (k2, v2) :: rest, k, v =>
      if k2 = k then (k, v) :: rest else (k2, v2) :: insertA rest k v

/-- The increment-or-insert step shared by the two loops of
`InMemoryModel::add_document` (model.rs lines 63-70 for `tf`, lines 72-78
for `df`): bump the entry by 1 if present, otherwise insert it with 1. -/
def incrEntry : List (String × Nat) → String → List (String × Nat)
  | [], term => [(term, 1)]
  | (k, f) :: rest, term =>
      if k = term then (k, f + 1) :: rest else (k, f) :: incrEntry rest term

/-- The single scan of `InMemoryModel::add_document` (model.rs lines 62-70):
build the per-document term-frequency table and the token count in one pass
over the tokens. -/
def scanTokens (tokens : List String) : TermFreq × Nat :=
  tokens.foldl (fun acc term => (incrEntry acc.1 term, acc.2 + 1)) ([], 0)

/-- `struct InMemoryModel { docs: Docs, df: DocFreq }` (model.rs lines
37-41); the `HashMap<PathBuf, Doc>` of documents becomes an association
list whose order stands for the hash iteration order. -/
structure InMemoryModel : Type where
  docs : List (String × Doc)
  df : DocFreq
deriving DecidableEq

/-- `fn compute_tf(t, doc) -> f32 { m / n }` (model.rs lines 24-28) with
`n = doc.count as f32` and `m = doc.tf.get(t).cloned().unwrap_or(0) as f32`.
IEEE division: `0.0 / 0.0 = NaN`, `m / 0.0 = +inf` for `m > 0`. -/
noncomputable def compute_tf (t : String) (doc : Doc) : F :=
  let n := doc.count
  let m := (lookupA doc.tf t).getD 0
  if n = 0 then
    if m = 0 then F.nan else F.pinf
  else
    F.val ((m : ℝ) / (n : ℝ))

/-- `fn compute_idf(t, n, df) -> f32 { (n / m).log10() }` (model.rs lines
30-34) with `m = df.get(t).cloned().unwrap_or(1) as f32`. IEEE semantics:
`log10(0) = -inf`, `log10(+inf) = +inf`, `log10(NaN) = NaN`. -/
noncomputable def compute_idf (t : String) (n : Nat) (df : DocFreq) : F :=
  let m := (lookupA df t).getD 1
  if n = 0 then
    if m = 0 then F.nan else F.ninf
  else
    if m = 0 then F.pinf
    else F.val (Real.logb 10 ((n : ℝ) / (m : ℝ)))

/-- One insertion step of the ascending sort of `search_query` (model.rs
line 54, `result.sort_by(|(_, r1), (_, r2)| r1.partial_cmp(r2).unwrap())`):
`none` models the panic of `unwrap` when a comparison involves NaN. -/
noncomputable def rankInsert (x : String × F) : List (String × F) → Option (List (String × F))
  | [] => some [x]
  | y :: rest =>
      match fcmp x.2 y.2 with
      | none => none
      | some Ordering.gt => (rankInsert x rest).map (fun l => y :: l)
      | some _ => some (x :: y :: rest)

/-- The ascending comparison sort of `search_query` (model.rs line 54),
modelled as an insertion sort with the panic-propagating comparator. -/
noncomputable def rankSort : List (String × F) → Option (List (String × F))
  | [] => some []
  | x :: rest => (rankSort rest).bind (rankInsert x)

/-- `InMemoryModel::search_query` (model.rs lines 44-57): for every document
accumulate `Σ compute_tf · compute_idf` over the query tokens, sort
ascending by rank, reverse, and return `Ok`. The outer `Option` is `none`
when the sort comparator panics; the Rust `Err` case never occurs. -/
noncomputable def InMemoryModel.search_query (model : InMemoryModel)
    (tokens : List String) : Option (Except Unit (List (String × F))) :=
  let result := model.docs.map (fun pd =>
    (pd.1,
     tokens.foldl
       (fun rank token =>
         F.add rank (F.mul (compute_tf token pd.2)
                           (compute_idf token model.docs.length model.df)))
       (F.val 0)))
  match rankSort result with
  | none => none
  | some sorted => some (Except.ok sorted.reverse)

/-- The state transformation of `InMemoryModel::add_document` (model.rs
lines 59-82): scan the tokens once into `(tf, count)`, bump `df` for every
key of the scanned `tf`, and insert/replace the `Doc` under the path. -/
def InMemoryModel.add_document_state (model : InMemoryModel)
    (file_path : String) (tokens : List String) : InMemoryModel :=
  let scanned := scanTokens tokens
  let df := (scanned.1.map Prod.fst).foldl incrEntry model.df
  { docs := insertA model.docs file_path { tf := scanned.1, count := scanned.2 },
    df := df }

/-- `InMemoryModel::add_document` (model.rs lines 59-82): always `Ok(())`,
returning the updated state. -/
def InMemoryModel.add_document (model : InMemoryModel)
    (file_path : String) (tokens : List String) : Except Unit InMemoryModel :=
  Except.ok (model.add_document_state file_path tokens)

/-- The spec-side term frequency `count_of(t, doc) / doc.term_count` as a
real number. -/
noncomputable def tfR (t : String) (doc : Doc) : ℝ :=
  (((lookupA doc.tf t).getD 0 : ℕ) : ℝ) / ((doc.count : ℕ) : ℝ)

/-- The spec-side inverse document frequency `log10(N / df)` (df defaulted
to 1 when absent) as a real number. -/
noncomputable def idfR (t : String) (n : Nat) (df : DocFreq) : ℝ :=
  Real.logb 10 ((n : ℝ) / (((lookupA df t).getD 1 : ℕ) : ℝ))

/-- The spec-side rank `Σ_t in query  tf(t, doc) · idf(t, corpus)`. -/
noncomputable def scoreR (tokens : List String) (doc : Doc) (n : Nat)
    (df : DocFreq) : ℝ :=
  (tokens.map (fun t => tfR t doc * idfR t n df)).sum

/-- Sum of the values of an association list (used by the
`sum(term_frequency.values()) == term_count` invariant). -/
def sumVals (l : List (String × Nat)) : Nat :=
  (l.map Prod.snd).sum

/-- The documented `Doc` invariant: the term frequencies sum to the token
count. -/
def DocInv (d : Doc) : Prop :=
  sumVals d.tf = d.count

/-- State of the sqlite database behind `SqliteModel` (model.rs lines
85-147): the set of existing table names (as created by `migrate`) and the
three relations. `nextId` models sqlite's generated `INTEGER PRIMARY KEY`. -/
structure SqliteModel : Type where
  tables : List String
  documents : List (Nat × String × Nat)
  term_freq_rows : List (Nat × String × Nat)
  doc_freq_rows : List (String × Nat)
  nextId : Nat
deriving DecidableEq

/-- The tables created by `SqliteModel::migrate` (model.rs lines 105-132):
`documents`, `term_freq`, `doc_freq`. -/
def migrateTables : List String :=
  [("documents"), ("term_freq"), ("doc_freq")]

/-- `SqliteModel::open` on a fresh database: migrated schema, no rows
(model.rs lines 134-146). -/
def SqliteModel.open_db : SqliteModel :=
  { tables := migrateTables
    documents := []
    term_freq_rows := []
    doc_freq_rows := []
    nextId := 1 }

/-- The per-term loop of `SqliteModel::add_document` (model.rs lines
187-230): insert a `term_freq` row (the `UNIQUE(term, doc_id)` constraint
makes a duplicate insert fail), then read the current `doc_freq` value
(0 when absent) and write back `value + 1` via `INSERT OR REPLACE`. -/
def sqliteInsertTerms (doc_id : Nat) : SqliteModel → List (String × Nat) → Except Unit SqliteModel
  | db, [] => Except.ok db
  | db, (term, freq) :: rest =>
      if ("term_freq") ∈ db.tables then
        if db.term_freq_rows.any (fun r => r.1 == doc_id && r.2.1 == term) then
          Except.error ()
        else
          if ("doc_freq") ∈ db.tables then
            let current := (lookupA db.doc_freq_rows term).getD 0
            sqliteInsertTerms doc_id
              { db with
                term_freq_rows := db.term_freq_rows ++ [(doc_id, term, freq)],
                doc_freq_rows := insertA db.doc_freq_rows term (current + 1) }
              rest
          else Except.error ()
      else Except.error ()

/-- `SqliteModel::add_document` (model.rs lines 155-233). The first
prepared statement is `INSERT INTO document (path, term_count) VALUES ..
RETURNING id` (model.rs line 159): its target table is named `document`,
so preparing it fails (and the whole call returns `Err`) whenever the
schema does not contain a table of that name — which is always the case
for the schema `migrate` creates (`documents`, plural). Were the table
present, the code would still take `doc_id` from the *second* `stmt.next()`
(model.rs lines 170-175), which yields `State::Done`, so `doc_id = 0`. -/
def SqliteModel.add_document (db : SqliteModel) (file_path : String)
    (tokens : List String) : Except Unit SqliteModel :=
  if ("document") ∈ db.tables then
    if db.documents.any (fun r => r.2.1 == file_path) then
      Except.error ()
    else
      let newId := db.nextId
      let db1 : SqliteModel :=
        { db with
          documents := db.documents ++ [(newId, file_path, tokens.length)],
          nextId := newId + 1 }
      let doc_id : Nat := 0
      let tf := (scanTokens tokens).1
      sqliteInsertTerms doc_id db1 tf
  else
    Except.error ()

/-- `SqliteModel::search_query` is `todo!()` (model.rs lines 151-153):
every call panics; no result is ever produced. -/
noncomputable def SqliteModel.search_query (_db : SqliteModel)
    (_tokens : List String) : Option (Except Unit (List (String × F))) :=
  none

/-- Ascending order on ranked results, read through `F.toReal`. -/
def leRank (a b : String × F) : Prop :=
  F.toReal a.2 ≤ F.toReal b.2

/-- Every rank in the list is a finite value (no NaN, no infinity). -/
def AllVal (l : List (String × F)) : Prop :=
  ∀ p ∈ l, ∃ x, p.2 = F.val x

theorem lookupA_insertA {α : Type} (l : List (String × α)) (k : String) (v : α)
    (t : String) :
    lookupA (insertA l k v) t = if t = k then some v else lookupA l t := by
  induction l with
  | nil =>
    rcases eq_or_ne t k with h | h
    · simp [insertA, lookupA, h]
    · simp [insertA, lookupA, h, Ne.symm h]
  | cons p rest ih =>
    obtain ⟨k2, v2⟩ := p
    rcases eq_or_ne k2 k with h2 | h2
    · subst h2
      rcases eq_or_ne t k2 with h | h
      · simp [insertA, lookupA, h]
      · simp [insertA, lookupA, h, Ne.symm h]
    · rcases eq_or_ne k2 t with h | h
      · subst h
        simp [insertA, lookupA, h2, Ne.symm h2]
      · simp [insertA, lookupA, h2, h, ih]

theorem lookupA_incrEntry (l : List (String × Nat)) (s t : String) :
    lookupA (incrEntry l s) t =
      if t = s then some ((lookupA l t).getD 0 + 1) else lookupA l t := by
  induction l with
  | nil =>
    rcases eq_or_ne t s with h | h
    · simp [incrEntry, lookupA, h]
    · simp [incrEntry, lookupA, h, Ne.symm h]
  | cons p rest ih =>
    obtain ⟨k, f⟩ := p
    rcases eq_or_ne k s with hks | hks
    · subst hks
      rcases eq_or_ne t k with h | h
      · simp [incrEntry, lookupA, h]
      · simp [incrEntry, lookupA, h, Ne.symm h]
    · rcases eq_or_ne k t with h | h
      · subst h
        simp [incrEntry, lookupA, hks, Ne.symm hks]
      · simp [incrEntry, lookupA, hks, h, ih]

theorem sumVals_incrEntry (l : List (String × Nat)) (s : String) :
    sumVals (incrEntry l s) = sumVals l + 1 := by
  induction l with
  | nil => simp [incrEntry, sumVals]
  | cons p rest ih =>
    obtain ⟨k, f⟩ := p
    rcases eq_or_ne k s with h | h
    · simp [incrEntry, h, sumVals]
      omega
    · simp [incrEntry, h, sumVals] at *
      omega

theorem keys_incrEntry (l : List (String × Nat)) (s : String) :
    (incrEntry l s).map Prod.fst =
      if s ∈ l.map Prod.fst then l.map Prod.fst else l.map Prod.fst ++ [s] := by
  induction l with
  | nil => simp [incrEntry]
  | cons p rest ih =>
    obtain ⟨k, f⟩ := p
    rcases eq_or_ne k s with h | h
    · simp [incrEntry, h]
    · simp [incrEntry, h, Ne.symm h, ih]
      rcases Decidable.em (s ∈ rest.map Prod.fst) with hm | hm
      · simp [hm]
      · simp [hm, Ne.symm h]

theorem nodup_keys_incrEntry (l : List (String × Nat)) (s : String)
    (h : (l.map Prod.fst).Nodup) : ((incrEntry l s).map Prod.fst).Nodup := by
  rw [keys_incrEntry]
  rcases Decidable.em (s ∈ l.map Prod.fst) with hm | hm
  · simpa [hm] using h
  · simp [hm, List.nodup_append, h]

theorem lookupA_isSome_iff_mem {α : Type} (l : List (String × α)) (t : String) :
    (lookupA l t).isSome = true ↔ t ∈ l.map Prod.fst := by
  induction l with
  | nil => simp [lookupA]
  | cons p rest ih =>
    obtain ⟨k, v⟩ := p
    rcases eq_or_ne k t with h | h
    · simp [lookupA, h]
    · simp [lookupA, h, Ne.symm h, ih]

theorem lookupA_mem {α : Type} (l : List (String × α)) (t : String) (v : α)
    (h : lookupA l t = some v) : (t, v) ∈ l := by
  induction l with
  | nil => simp [lookupA] at h
  | cons p rest ih =>
    obtain ⟨k, w⟩ := p
    rcases eq_or_ne k t with hk | hk
    · subst hk
      simp [lookupA] at h
      simp [h]
    · simp [lookupA, hk] at h
      exact List.mem_cons_of_mem _ (ih h)

theorem mem_insertA {α : Type} (l : List (String × α)) (k : String) (v : α)
    (x : String × α) (h : x ∈ insertA l k v) : x = (k, v) ∨ x ∈ l := by
  induction l with
  | nil =>
    simp [insertA] at h
    exact Or.inl h
  | cons p rest ih =>
    obtain ⟨k2, v2⟩ := p
    rcases eq_or_ne k2 k with h2 | h2
    · simp [insertA, h2] at h
      rcases h with h | h
      · exact Or.inl h
      · exact Or.inr (List.mem_cons_of_mem _ h)
    · simp [insertA, h2] at h
      rcases h with h | h
      · exact Or.inr (by simp [h])
      · rcases ih h with h3 | h3
        · exact Or.inl h3
        · exact Or.inr (List.mem_cons_of_mem _ h3)

theorem lookupA_foldl_incrEntry (ts : List String) (l : List (String × Nat))
    (t : String) :
    lookupA (ts.foldl incrEntry l) t =
      if t ∈ ts then some ((lookupA l t).getD 0 + ts.count t) else lookupA l t := by
  induction ts generalizing l with
  | nil => simp
  | cons s ts ih =>
    rw [List.foldl_cons, ih]
    rcases Decidable.em (t ∈ ts) with hts | hts
    · rcases eq_or_ne t s with hst | hst
      · subst hst
        simp [hts, lookupA_incrEntry, List.count_cons]
        omega
      · simp [hts, hst, lookupA_incrEntry, List.count_cons]
    · rcases eq_or_ne t s with hst | hst
      · subst hst
        simp [hts, lookupA_incrEntry, List.count_cons, List.count_eq_zero_of_not_mem hts]
      · simp [hts, hst, lookupA_incrEntry]

theorem scanTokens_foldl (ts : List String) (l : TermFreq) (c : Nat) :
    ts.foldl (fun acc term => (incrEntry acc.1 term, acc.2 + 1)) (l, c) =
      (ts.foldl incrEntry l, c + ts.length) := by
  induction ts generalizing l c with
  | nil => simp
  | cons s ts ih =>
    rw [List.foldl_cons, List.foldl_cons, ih]
    simp only [Prod.mk.injEq, List.length_cons]
    exact ⟨trivial, by omega⟩

theorem scanTokens_fst (ts : List String) :
    (scanTokens ts).1 = ts.foldl incrEntry [] := by
  rw [scanTokens, scanTokens_foldl]

theorem scanTokens_snd (ts : List String) : (scanTokens ts).2 = ts.length := by
  rw [scanTokens, scanTokens_foldl]
  simp

theorem lookupA_scanTokens (ts : List String) (t : String) :
    lookupA (scanTokens ts).1 t = if t ∈ ts then some (ts.count t) else none := by
  rw [scanTokens_fst, lookupA_foldl_incrEntry]
  simp [lookupA]

theorem sumVals_foldl_incrEntry (ts : List String) (l : List (String × Nat)) :
    sumVals (ts.foldl incrEntry l) = sumVals l + ts.length := by
  induction ts generalizing l with
  | nil => simp
  | cons s ts ih =>
    rw [List.foldl_cons, ih, sumVals_incrEntry]
    simp only [List.length_cons]
    omega

theorem nodup_keys_foldl_incrEntry (ts : List String) (l : List (String × Nat))
    (h : (l.map Prod.fst).Nodup) : ((ts.foldl incrEntry l).map Prod.fst).Nodup := by
  induction ts generalizing l with
  | nil => exact h
  | cons s ts ih => exact ih _ (nodup_keys_incrEntry _ _ h)

theorem lookupA_foldl_incrEntry_nodup (ks : List String) (df : List (String × Nat))
    (t : String) (h : ks.Nodup) :
    lookupA (ks.foldl incrEntry df) t =
      if t ∈ ks then some ((lookupA df t).getD 0 + 1) else lookupA df t := by
  induction ks generalizing df with
  | nil => simp
  | cons k ks ih =>
    have hk : k ∉ ks := (List.nodup_cons.mp h).1
    have hks := (List.nodup_cons.mp h).2
    rw [List.foldl_cons, ih _ hks]
    rcases Decidable.em (t ∈ ks) with hts | hts
    · have hne : t ≠ k := fun he => hk (he ▸ hts)
      simp [hts, hne, lookupA_incrEntry]
    · rcases eq_or_ne t k with htk | htk
      · subst htk
        simp [hts, lookupA_incrEntry]
      · simp [hts, htk, lookupA_incrEntry]

theorem mem_keys_scanTokens (ts : List String) (t : String) :
    t ∈ (scanTokens ts).1.map Prod.fst ↔ t ∈ ts := by
  rw [← lookupA_isSome_iff_mem, lookupA_scanTokens]
  rcases Decidable.em (t ∈ ts) with h | h <;> simp [h]

theorem df_lookup_getD_pos (df : DocFreq) (t : String)
    (hdf : ∀ p ∈ df, 0 < p.2) : (lookupA df t).getD 1 ≠ 0 := by
  cases h : lookupA df t with
  | none => simp
  | some v =>
    have hv := hdf (t, v) (lookupA_mem df t v h)
    simp only [Option.getD_some]
    omega

theorem compute_idf_pos (t : String) (n : Nat) (df : DocFreq) (hn : n ≠ 0)
    (hm : (lookupA df t).getD 1 ≠ 0) :
    compute_idf t n df = F.val (idfR t n df) := by
  simp [compute_idf, idfR, hn, hm]

theorem compute_tf_pos (t : String) (d : Doc) (hd : d.count ≠ 0) :
    compute_tf t d = F.val (tfR t d) := by
  simp [compute_tf, tfR, hd]

/-- C1 (amended): for a corpus of `N ≥ 1` documents whose document-frequency
entries are positive (as every table built by `add_document` is), the idf
computed by the engine equals `log10(N / df)` with `df` defaulted to 1 when
the term is absent; in particular a term absent from `document_frequency`
yields `idf = log10(N)` exactly, which is non-zero whenever `N ≥ 2` (it is
zero at `N = 1`). -/
theorem idf_formula (t : String) (n : Nat) (df : DocFreq) (hn : 0 < n)
    (hdf : ∀ p ∈ df, 0 < p.2) :
    compute_idf t n df = F.val (idfR t n df) ∧
    (lookupA df t = none → compute_idf t n df = F.val (Real.logb 10 (n : ℝ))) ∧
    (lookupA df t = none → 2 ≤ n → compute_idf t n df ≠ F.val 0) := by
  have hm := df_lookup_getD_pos df t hdf
  have hn2 : n ≠ 0 := Nat.pos_iff_ne_zero.mp hn
  refine ⟨compute_idf_pos t n df hn2 hm, ?_, ?_⟩
  · intro habs
    rw [compute_idf_pos t n df hn2 hm, idfR, habs]
    simp
  · intro habs h2 heq
    rw [compute_idf_pos t n df hn2 hm, idfR, habs] at heq
    simp only [Option.getD_none, Nat.cast_one, div_one, F.val.injEq] at heq
    have hn1 : 1 < n := lt_of_lt_of_le one_lt_two h2
    have hlt : (1 : ℝ) < (n : ℝ) := by exact_mod_cast hn1
    have hpos := @Real.logb_pos 10 (n : ℝ) (by norm_num) hlt
    exact absurd heq (ne_of_gt hpos)

/-- C1 witness: a concrete corpus of 3 documents and an empty
document-frequency table, at which the hypotheses of `idf_formula` hold and
the absent term scores `log10(3) ≠ 0`. -/
theorem idf_formula_witness :
    0 < 3 ∧
    compute_idf ("x") 3 [] = F.val (idfR ("x") 3 []) ∧
    compute_idf ("x") 3 [] ≠ F.val 0 :=
  ⟨by norm_num,
   (idf_formula ("x") 3 [] (by norm_num) (by simp)).1,
   (idf_formula ("x") 3 [] (by norm_num) (by simp)).2.2 rfl (by norm_num)⟩

/-- C1 counterexample: in a corpus of exactly one document, a term absent
from `document_frequency` gets `idf = log10(1/1) = 0` — the claim's
"non-zero" parenthetical is false at `N = 1`. -/
theorem idf_nonzero_counterexample :
    lookupA ([] : DocFreq) ("x") = none ∧ compute_idf ("x") 1 [] = F.val 0 := by
  refine ⟨rfl, ?_⟩
  simp [compute_idf, lookupA, Real.logb_one]

/-- C2 (amended): `compute_tf` returns `count_of(t, doc) / doc.term_count`
whenever `doc.term_count > 0`; but when `doc.term_count == 0` the code has
no guard and the IEEE division `0.0 / 0.0` yields NaN (for any document
actually built from empty content the numerator is 0), not 0. -/
theorem tf_formula (t : String) (d : Doc) :
    (0 < d.count → compute_tf t d = F.val (tfR t d)) ∧
    (d.count = 0 → (lookupA d.tf t).getD 0 = 0 → compute_tf t d = F.nan) := by
  constructor
  · intro h
    exact compute_tf_pos t d (Nat.pos_iff_ne_zero.mp h)
  · intro h0 hm
    simp [compute_tf, h0, hm]

/-- C2 witness: concrete evaluations of both branches of `tf_formula`. -/
theorem tf_formula_witness :
    0 < 2 ∧
    compute_tf ("x") { tf := [(("x"), 1)], count := 2 }
      = F.val (tfR ("x") { tf := [(("x"), 1)], count := 2 }) ∧
    compute_tf ("y") { tf := [], count := 0 } = F.nan :=
  ⟨by norm_num,
   (tf_formula ("x") { tf := [(("x"), 1)], count := 2 }).1 (by norm_num),
   (tf_formula ("y") { tf := [], count := 0 }).2 rfl rfl⟩

/-- C2 counterexample: on the document built from empty content
(`term_count = 0`) the engine's term frequency is NaN, not the claimed 0 —
the division-by-zero branch does produce NaN. -/
theorem tf_zero_counterexample :
    compute_tf ("x") { tf := [], count := 0 } = F.nan ∧ F.nan ≠ F.val 0 :=
  ⟨rfl, fun h => F.noConfusion h⟩

/-- C9: `search_query` on an `InMemoryModel` containing zero documents
returns `Ok` with an empty result list, for every query token sequence and
every document-frequency table (no error, no panic). -/
theorem search_query_empty_corpus (df : DocFreq) (ts : List String) :
    InMemoryModel.search_query { docs := [], df := df } ts
      = some (Except.ok []) := rfl

/-- C5 counterexample: index nothing through both backends (both stores
empty) and run the empty query: the in-memory backend returns the empty
result set, but `SqliteModel::search_query` is `todo!()` and panics — it
returns no (path, score) pairs at all, so the two backends do not return
the same set of pairs. -/
theorem backend_parity_counterexample :
    SqliteModel.search_query SqliteModel.open_db [] = none ∧
    InMemoryModel.search_query { docs := [], df := [] } []
      = some (Except.ok []) :=
  ⟨rfl, rfl⟩

/-- C5 (amended): `SqliteModel::search_query` is left unimplemented
(`todo!()`): every call panics and produces no result, for every database
state and every query; backend parity therefore fails and requires an
implementation reproducing `InMemoryModel` semantics. -/
theorem sqlite_search_query_unimplemented (db : SqliteModel)
    (ts : List String) : SqliteModel.search_query db ts = none := rfl

/-- C6: `SqliteModel::add_document` never inserts anything on a migrated
database: its first statement is `INSERT INTO document (path, term_count)
.. RETURNING id`, but `migrate` created the table under the name
`documents`, so preparing the statement fails (`no such table: document`)
and the call returns `Err(())` for every path and token sequence. -/
theorem sqlite_add_document_error (p : String) (ts : List String) :
    SqliteModel.open_db.add_document p ts = Except.error () := by
  have h : ("document") ∉ SqliteModel.open_db.tables := by decide
  simp [SqliteModel.add_document, h]

theorem nodup_keys_scanTokens (ts : List String) :
    ((scanTokens ts).1.map Prod.fst).Nodup := by
  rw [scanTokens_fst]
  exact nodup_keys_foldl_incrEntry ts [] (by simp)

/-- C3: `InMemoryModel::add_document` returns `Ok`, builds the per-document
term-frequency table and the term count by the single scan of the tokens
(`count = length`, each scanned term mapped to its occurrence count, terms
never scanned absent), increments `document_frequency[term]` by exactly 1
for every distinct term of the scan (inserting 1 when absent, every other
entry untouched), and inserts/replaces the `Doc` record under the key. -/
theorem add_document_spec (m : InMemoryModel) (p : String) (ts : List String) :
    m.add_document p ts = Except.ok (m.add_document_state p ts) ∧
    (scanTokens ts).2 = ts.length ∧
    (∀ t, lookupA (scanTokens ts).1 t
        = if t ∈ ts then some (ts.count t) else none) ∧
    (∀ q, lookupA (m.add_document_state p ts).docs q
        = if q = p then some { tf := (scanTokens ts).1, count := (scanTokens ts).2 }
          else lookupA m.docs q) ∧
    (∀ t, lookupA (m.add_document_state p ts).df t
        = if t ∈ ts then some ((lookupA m.df t).getD 0 + 1)
          else lookupA m.df t) := by
  refine ⟨rfl, scanTokens_snd ts, lookupA_scanTokens ts, ?_, ?_⟩
  · intro q
    simp only [InMemoryModel.add_document_state]
    exact lookupA_insertA m.docs p _ q
  · intro t
    simp only [InMemoryModel.add_document_state]
    rw [lookupA_foldl_incrEntry_nodup _ _ _ (nodup_keys_scanTokens ts)]
    have hiff := mem_keys_scanTokens ts t
    rcases Decidable.em (t ∈ ts) with h | h
    · rw [if_pos (hiff.mpr h), if_pos h]
    · rw [if_neg (fun hh => h (hiff.mp hh)), if_neg h]

/-- C7: the `Doc` stored by `add_document` always satisfies
`sum(term_frequency.values()) == term_count`, and the invariant is
preserved: if every stored document satisfies it, every document after an
`add_document` still does (`search_query` reads the state and never
mutates it). -/
theorem doc_invariant (m : InMemoryModel) (p : String) (ts : List String)
    (h : ∀ pd ∈ m.docs, DocInv pd.2) :
    DocInv { tf := (scanTokens ts).1, count := (scanTokens ts).2 } ∧
    ∀ pd ∈ (m.add_document_state p ts).docs, DocInv pd.2 := by
  have hnew : DocInv { tf := (scanTokens ts).1, count := (scanTokens ts).2 } := by
    simp only [DocInv]
    rw [scanTokens_fst, scanTokens_snd, sumVals_foldl_incrEntry]
    simp [sumVals]
  refine ⟨hnew, ?_⟩
  intro pd hpd
  simp only [InMemoryModel.add_document_state] at hpd
  rcases mem_insertA _ _ _ _ hpd with he | he
  · rw [he]
    exact hnew
  · exact h pd he

/-- C7 witness: starting from the empty model (trivially invariant), adding
the tokens x, x, y yields a store whose only document satisfies the
invariant (tf sums to 3 = count). -/
theorem doc_invariant_witness :
    (∀ pd ∈ ({ docs := [], df := [] } : InMemoryModel).docs, DocInv pd.2) ∧
    ∀ pd ∈ (InMemoryModel.add_document_state { docs := [], df := [] } ("a")
        [("x"), ("x"), ("y")]).docs, DocInv pd.2 :=
  ⟨by simp,
   (doc_invariant { docs := [], df := [] } ("a") [("x"), ("x"), ("y")]
     (by simp)).2⟩

/-- C8: re-inserting under a key already present replaces the stored
document's `term_frequency`/`term_count` with the freshly scanned values,
but `document_frequency` is only ever incremented for the new distinct
terms: entries for terms of the previously stored document that are not
re-added stay exactly as they were (no decrement / retraction). -/
theorem reinsert_replaces_without_retraction (m : InMemoryModel) (p : String)
    (oldDoc : Doc) (ts : List String)
    (_hold : lookupA m.docs p = some oldDoc) :
    lookupA (m.add_document_state p ts).docs p
      = some { tf := (scanTokens ts).1, count := (scanTokens ts).2 } ∧
    (∀ t, lookupA (m.add_document_state p ts).df t
        = if t ∈ ts then some ((lookupA m.df t).getD 0 + 1)
          else lookupA m.df t) ∧
    (∀ t, t ∉ ts → lookupA (m.add_document_state p ts).df t = lookupA m.df t) := by
  have hdf : ∀ t, lookupA (m.add_document_state p ts).df t
      = if t ∈ ts then some ((lookupA m.df t).getD 0 + 1) else lookupA m.df t := by
    intro t
    simp only [InMemoryModel.add_document_state]
    rw [lookupA_foldl_incrEntry_nodup _ _ _ (nodup_keys_scanTokens ts)]
    have hiff := mem_keys_scanTokens ts t
    rcases Decidable.em (t ∈ ts) with h | h
    · rw [if_pos (hiff.mpr h), if_pos h]
    · rw [if_neg (fun hh => h (hiff.mp hh)), if_neg h]
  refine ⟨?_, hdf, ?_⟩
  · simp only [InMemoryModel.add_document_state]
    rw [lookupA_insertA]
    simp
  · intro t ht
    rw [hdf t, if_neg ht]

/-- C8 witness: index "a" with token x, then re-index "a" with token y: the
stored document becomes the y-document, while `document_frequency` still
holds the prior x-contribution (and gains y). -/
theorem reinsert_witness :
    lookupA (InMemoryModel.add_document_state { docs := [], df := [] } ("a")
        [("x")]).docs ("a") = some { tf := [(("x"), 1)], count := 1 } ∧
    lookupA (InMemoryModel.add_document_state
        (InMemoryModel.add_document_state { docs := [], df := [] } ("a") [("x")])
        ("a") [("y")]).docs ("a") = some { tf := [(("y"), 1)], count := 1 } ∧
    lookupA (InMemoryModel.add_document_state
        (InMemoryModel.add_document_state { docs := [], df := [] } ("a") [("x")])
        ("a") [("y")]).df ("x") = some 1 := by
  refine ⟨by decide, ?_, ?_⟩
  · have := (reinsert_replaces_without_retraction
      (InMemoryModel.add_document_state { docs := [], df := [] } ("a") [("x")])
      ("a") { tf := [(("x"), 1)], count := 1 } [("y")] (by decide)).1
    rw [this]
    decide
  · have := (reinsert_replaces_without_retraction
      (InMemoryModel.add_document_state { docs := [], df := [] } ("a") [("x")])
      ("a") { tf := [(("x"), 1)], count := 1 } [("y")] (by decide)).2.2
      ("x") (by decide)
    rw [this]
    decide

theorem F_add_val (a b : ℝ) : F.add (F.val a) (F.val b) = F.val (a + b) := rfl

theorem F_mul_val (a b : ℝ) : F.mul (F.val a) (F.val b) = F.val (a * b) := rfl

theorem F_toReal_val (a : ℝ) : F.toReal (F.val a) = a := rfl

theorem rank_foldl_val (ts : List String) (d : Doc) (n : Nat) (df : DocFreq)
    (hd : d.count ≠ 0) (hn : n ≠ 0) (hdf : ∀ p ∈ df, 0 < p.2) :
    ∀ a : ℝ,
      ts.foldl (fun rank token =>
          F.add rank (F.mul (compute_tf token d) (compute_idf token n df)))
        (F.val a)
      = F.val (a + scoreR ts d n df) := by
  induction ts with
  | nil =>
    intro a
    simp [scoreR]
  | cons t ts ih =>
    intro a
    simp only [List.foldl_cons]
    rw [compute_tf_pos t d hd,
        compute_idf_pos t n df hn (df_lookup_getD_pos df t hdf),
        F_mul_val, F_add_val, ih]
    congr 1
    simp [scoreR]
    ring

theorem rankInsert_allVal (x : String × F) (rx : ℝ) (hx : x.2 = F.val rx)
    (l : List (String × F)) (hl : AllVal l) :
    ∃ l2, rankInsert x l = some l2 ∧ l2.Perm (x :: l) ∧
      (l.Pairwise leRank → l2.Pairwise leRank) := by
  induction l with
  | nil =>
    exact ⟨[x], rfl, List.Perm.refl _, fun _ => List.pairwise_singleton _ _⟩
  | cons y rest ih =>
    obtain ⟨ry, hy⟩ := hl y (List.mem_cons_self _ _)
    have hrest : AllVal rest := fun p hp => hl p (List.mem_cons_of_mem _ hp)
    rcases lt_trichotomy rx ry with hlt | heq | hgt
    · refine ⟨x :: y :: rest, ?_, List.Perm.refl _, ?_⟩
      · simp [rankInsert, hx, hy, fcmp, hlt]
      · intro hp
        refine List.Pairwise.cons ?_ hp
        intro b hb
        have hyb : ∀ c ∈ rest, leRank y c := (List.pairwise_cons.mp hp).1
        rcases List.mem_cons.mp hb with hb | hb
        · rw [hb]
          simp only [leRank, hx, hy, F_toReal_val]
          exact le_of_lt hlt
        · have := hyb b hb
          simp only [leRank, hx, hy, F_toReal_val] at this ⊢
          exact le_of_lt (lt_of_lt_of_le hlt this)
    · refine ⟨x :: y :: rest, ?_, List.Perm.refl _, ?_⟩
      · simp [rankInsert, hx, hy, fcmp, heq]
      · intro hp
        refine List.Pairwise.cons ?_ hp
        intro b hb
        have hyb : ∀ c ∈ rest, leRank y c := (List.pairwise_cons.mp hp).1
        rcases List.mem_cons.mp hb with hb | hb
        · rw [hb]
          simp only [leRank, hx, hy, F_toReal_val]
          exact le_of_eq heq
        · have := hyb b hb
          simp only [leRank, hx, hy, F_toReal_val] at this ⊢
          exact heq.le.trans this
    · obtain ⟨l2, he, hperm, hsort⟩ := ih hrest
      refine ⟨y :: l2, ?_, ?_, ?_⟩
      · simp [rankInsert, hx, hy, fcmp, asymm hgt, hgt.ne', he]
      · exact (hperm.cons y).trans (List.Perm.swap x y rest)
      · intro hp
        have hyb : ∀ c ∈ rest, leRank y c := (List.pairwise_cons.mp hp).1
        refine List.Pairwise.cons ?_ (hsort (List.pairwise_cons.mp hp).2)
        intro b hb
        rcases List.mem_cons.mp (hperm.mem_iff.mp hb) with hb2 | hb2
        · rw [hb2]
          simp only [leRank, hx, hy, F_toReal_val]
          exact le_of_lt hgt
        · exact hyb b hb2

theorem rankSort_allVal (l : List (String × F)) (hl : AllVal l) :
    ∃ l2, rankSort l = some l2 ∧ l2.Perm l ∧ l2.Pairwise leRank := by
  induction l with
  | nil => exact ⟨[], rfl, List.Perm.refl _, List.Pairwise.nil⟩
  | cons x rest ih =>
    have hrest : AllVal rest := fun p hp => hl p (List.mem_cons_of_mem _ hp)
    obtain ⟨l2, he, hperm, hsort⟩ := ih hrest
    obtain ⟨rx, hx⟩ := hl x (List.mem_cons_self _ _)
    have hl2 : AllVal l2 := fun p hp => hrest p (hperm.mem_iff.mp hp)
    obtain ⟨l3, he3, hperm3, hsort3⟩ := rankInsert_allVal x rx hx l2 hl2
    refine ⟨l3, ?_, ?_, hsort3 hsort⟩
    · simp [rankSort, he, he3]
    · exact hperm3.trans (hperm.cons x)

/-- C4 (amended): for every corpus in which every indexed document has a
non-zero token count and every document-frequency entry is positive (both
hold for any corpus built from non-empty documents; a zero-count document
makes its score NaN and the sort comparator panic, see the counterexample),
`search_query` returns `Ok` with exactly one `(path, score)` pair per
document, each score being `Σ_t in query tf(t, doc) · idf(t, corpus)`, and
the returned sequence is sorted by descending score. -/
theorem search_query_spec (m : InMemoryModel) (ts : List String)
    (hdocs : ∀ pd ∈ m.docs, pd.2.count ≠ 0)
    (hdf : ∀ p ∈ m.df, 0 < p.2) :
    ∃ res, m.search_query ts = some (Except.ok res) ∧
      res.Perm (m.docs.map (fun pd =>
        (pd.1, F.val (scoreR ts pd.2 m.docs.length m.df)))) ∧
      res.Pairwise (fun a b => F.toReal b.2 ≤ F.toReal a.2) := by
  have hmap : m.docs.map (fun pd =>
      (pd.1,
       ts.foldl
         (fun rank token =>
           F.add rank (F.mul (compute_tf token pd.2)
                             (compute_idf token m.docs.length m.df)))
         (F.val 0)))
      = m.docs.map (fun pd => (pd.1, F.val (scoreR ts pd.2 m.docs.length m.df))) := by
    apply List.map_congr_left
    intro pd hpd
    have hn : m.docs.length ≠ 0 := by
      intro h0
      rw [List.length_eq_zero] at h0
      rw [h0] at hpd
      simp at hpd
    rw [rank_foldl_val ts pd.2 m.docs.length m.df (hdocs pd hpd) hn hdf 0,
        zero_add]
  have hav : AllVal (m.docs.map (fun pd =>
      (pd.1, F.val (scoreR ts pd.2 m.docs.length m.df)))) := by
    intro p hp
    simp only [List.mem_map] at hp
    obtain ⟨pd, _, hpe⟩ := hp
    exact ⟨scoreR ts pd.2 m.docs.length m.df, by rw [← hpe]⟩
  obtain ⟨l2, he, hperm, hsort⟩ := rankSort_allVal _ hav
  refine ⟨l2.reverse, ?_, ?_, ?_⟩
  · simp only [InMemoryModel.search_query]
    rw [hmap, he]
  · exact (List.reverse_perm l2).trans hperm
  · rw [List.pairwise_reverse]
    exact hsort

/-- C4 witness: a one-document corpus with a one-token document and the
matching one-term query satisfies the hypotheses of `search_query_spec`,
which then yields the sorted scored result. -/
theorem search_query_spec_witness :
    (∀ pd ∈ ({ docs := [(("a"), { tf := [(("x"), 1)], count := 1 })],
               df := [(("x"), 1)] } : InMemoryModel).docs, pd.2.count ≠ 0) ∧
    ∃ res,
      InMemoryModel.search_query
        { docs := [(("a"), { tf := [(("x"), 1)], count := 1 })],
          df := [(("x"), 1)] } [("x")] = some (Except.ok res) ∧
      res.Perm ([(("a"), { tf := [(("x"), 1)], count := 1 })].map (fun pd =>
        (pd.1, F.val (scoreR [("x")] pd.2 1 [(("x"), 1)])))) ∧
      res.Pairwise (fun a b => F.toReal b.2 ≤ F.toReal a.2) :=
  ⟨by decide,
   search_query_spec
     { docs := [(("a"), { tf := [(("x"), 1)], count := 1 })],
       df := [(("x"), 1)] }
     [("x")] (by decide) (by decide)⟩

/-- C4 counterexample: with a document indexed from empty content
(`count = 0`, score NaN) alongside a normal document, a non-empty query
makes `search_query` panic in the sort comparator and return no result at
all — so it does not hold for *every* indexed corpus that one pair per
document is returned in sorted order. -/
theorem search_query_no_result_counterexample :
    InMemoryModel.search_query
      { docs := [(("a"), { tf := [], count := 0 }),
                 (("b"), { tf := [(("x"), 1)], count := 1 })],
        df := [(("x"), 1)] }
      [("x")] = none := rfl

/-- C10: a reachable panic of `search_query`: starting from the empty model,
index "a" with no tokens (empty content, `term_count = 0`) and "b" with one
token, then run a non-empty query. Document "a"'s score is NaN
(`0.0/0.0 · idf`), so `partial_cmp(..).unwrap()` in the sort comparator has
no value to unwrap: the call panics and returns nothing. -/
theorem search_query_panic_reachable :
    InMemoryModel.search_query
      (InMemoryModel.add_document_state
        (InMemoryModel.add_document_state { docs := [], df := [] } ("a") [])
        ("b") [("x")])
      [("x")] = none := rfl
